import Mathlib

/-!
Verification development for the tiled multi-pass segmentation core of the
vision-biocell repository.  The definitions below are a shallow embedding of
the code in src/bsmu/biocell/inference/segmenters/tiled.py and of
PcaSegmenter.combine_class_masks in src/bsmu/biocell/plugins/pca_segmenter.py.

Modelling conventions:
* 2D arrays (masks, weight maps) are `Img` values: explicit spatial
  dimensions plus a total pixel function; 3D image arrays are `CImg`
  values with a channel count.
* Python numbers flowing into np.pad are modelled by `PyNum`, which keeps
  the int/float type distinction, because np.pad raises TypeError whenever
  pad_width has floating dtype (even for integral values such as 128.0).
* Mask values are exact rationals; the IEEE special values produced by
  numpy true division (NaN, +inf, -inf) are modelled by `EF`, which is the
  codomain of the division used by the multi-pass normalization step.
* Fallible steps (np.pad type/value checks, view_as_blocks divisibility,
  Python assert statements, NoneType arithmetic) return `Except String`.
-/

/-- A 2D array with explicit spatial dimensions and a total pixel function. -/
@[ext]
structure Img (α : Type) where
  rows : Nat
  cols : Nat
  px : Nat → Nat → α

/-- A 3D image array: spatial dimensions, channel count, pixel function. -/
@[ext]
structure CImg where
  rows : Nat
  cols : Nat
  chans : Nat
  px : Nat → Nat → Nat → ℚ

/-- A Python number that remembers whether it is an int or a float.  The
distinction matters because np.pad rejects float-typed pad widths. -/
inductive PyNum where
  | int : ℤ → PyNum
  | float : ℚ → PyNum
deriving DecidableEq

/-- Numeric value of a `PyNum`. -/
def PyNum.toQ : PyNum → ℚ
  | .int z => (z : ℚ)
  | .float q => q

/-- Python addition: int + int is int, anything involving a float is float. -/
def PyNum.add : PyNum → PyNum → PyNum
  | .int a, .int b => .int (a + b)
  | a, b => .float (a.toQ + b.toQ)

/-- Python multiplication with the int/float typing rule. -/
def PyNum.mul : PyNum → PyNum → PyNum
  | .int a, .int b => .int (a * b)
  | a, b => .float (a.toQ * b.toQ)

/-- Python subtraction with the int/float typing rule. -/
def PyNum.sub : PyNum → PyNum → PyNum
  | .int a, .int b => .int (a - b)
  | a, b => .float (a.toQ - b.toQ)

/-- Python floor division by 2 (the expression pad // 2 of the source). -/
def PyNum.fdiv2 : PyNum → PyNum
  | .int a => .int (Int.fdiv a 2)
  | .float q => .float ((Int.floor (q / 2) : ℤ) : ℚ)

/-- Whether the Python value is float-typed. -/
def PyNum.isFloatB : PyNum → Bool
  | .int _ => false
  | .float _ => true

/-- Integer value of a `PyNum` (floor for floats; only used after the
float-dtype check has passed, where the value is an int). -/
def PyNum.toZ : PyNum → ℤ
  | .int z => z
  | .float q => Int.floor q

/-- Python expression -n % T for natural n and positive T. -/
def negMod (n T : Nat) : Nat := (T - n % T) % T

/-- Line 159-160 of tiled.py: remove the alpha channel when there are 4. -/
def dropAlpha (img : CImg) : CImg :=
  if img.chans = 4 then ⟨img.rows, img.cols, 3, img.px⟩ else img

/-- np.pad with pads ((a,b),(c,d),(0,0)) and constant value 255. -/
def pad_img (img : CImg) (a b c d : Nat) : CImg :=
  ⟨img.rows + (a + b), img.cols + (c + d), img.chans,
   fun x y ch =>
     if a ≤ x ∧ x < a + img.rows ∧ c ≤ y ∧ y < c + img.cols
     then img.px (x - a) (y - c) ch else 255⟩

/-- TiledSegmentationTask._padded_image_to_tile (tiled.py lines 253-274).
Computes pad_rows = (-rows % tile_size) + extra_pads[0] * tile_size with
Python arithmetic, splits it with floor division, and calls np.pad.  np.pad
rejects float-typed pad widths (TypeError) and negative ones (ValueError).
The returned descriptor is (top, bottom, left, right). -/
def padded_image_to_tile (img : CImg) (T : Nat) (ep : PyNum × PyNum) :
    Except String (CImg × (Nat × Nat × Nat × Nat)) :=
  if T = 0 then .error "ZeroDivisionError: integer modulo by zero" else
  let padRows := PyNum.add (.int (negMod img.rows T)) (PyNum.mul ep.1 (.int T))
  let padCols := PyNum.add (.int (negMod img.cols T)) (PyNum.mul ep.2 (.int T))
  let padRowsHalf := padRows.fdiv2
  let padColsHalf := padCols.fdiv2
  let entries := [padRowsHalf, padRows.sub padRowsHalf, padColsHalf, padCols.sub padColsHalf]
  if entries.any PyNum.isFloatB then
    .error "TypeError: pad_width must be of integral type" else
  if entries.any (fun p => decide (p.toZ < 0)) then
    .error "ValueError: negative dimensions are not allowed" else
  let a := padRowsHalf.toZ.toNat
  let b := ((padRows.sub padRowsHalf).toZ).toNat
  let c := padColsHalf.toZ.toNat
  let d := ((padCols.sub padColsHalf).toZ).toNat
  .ok (pad_img img a b c d, (a, b, c, d))

/-- TiledSegmentationTask._unpad_image (tiled.py lines 276-281): the slice
image[pads00 : rows - pads01, pads10 : cols - pads11]. -/
def unpad_image {α : Type} (img : Img α) (pads : Nat × Nat × Nat × Nat) : Img α :=
  ⟨img.rows - pads.2.1 - pads.1, img.cols - pads.2.2.2 - pads.2.2.1,
   fun x y => img.px (x + pads.1) (y + pads.2.2.1)⟩

/-- The (r,c) tile of the padded image, as produced by view_as_blocks. -/
def tileAt (img : CImg) (T r c : Nat) : CImg :=
  ⟨T, T, img.chans, fun x y ch => img.px (r * T + x) (c * T + y) ch⟩

/-- The slice assignment padded_mask[row:row+T, col:col+T] = tile_mask. -/
def writeTile (T : Nat) (m : Img ℚ) (r c : Nat) (tm : Img ℚ) : Img ℚ :=
  ⟨m.rows, m.cols,
   fun x y =>
     if r * T ≤ x ∧ x < r * T + T ∧ c * T ≤ y ∧ y < c * T + T
     then tm.px (x - r * T) (y - c * T) else m.px x y⟩

/-- Row-major traversal order of the tile grid. -/
def rcList (R C : Nat) : List (Nat × Nat) :=
  (List.range R).foldr (fun r acc => ((List.range C).map (fun c => (r, c))) ++ acc) []

/-- TiledSegmentationTask._segment_tiled_individually (tiled.py 194-208):
one inference call per tile, written into the padded mask in row-major
order. -/
def segment_tiled_individually (seg : CImg → Img ℚ) (T : Nat) (padded : CImg)
    (R C : Nat) (m0 : Img ℚ) : Img ℚ :=
  (rcList R C).foldl
    (fun m rc => writeTile T m rc.1 rc.2 (seg (tileAt padded T rc.1 rc.2))) m0

/-- TiledSegmentationTask._segment_tile_batch (tiled.py 232-251): one batched
inference call, each returned tile mask written at its grid position. -/
def segment_tile_batch (segB : List CImg → List (Img ℚ)) (T : Nat) (m : Img ℚ)
    (batch : List ((Nat × Nat) × CImg)) : Img ℚ :=
  ((segB (batch.map Prod.snd)).zip (batch.map Prod.fst)).foldl
    (fun m p => writeTile T m p.2.1 p.2.2 p.1) m

/-- Loop body of TiledSegmentationTask._segment_tiled_in_batches (tiled.py
210-230): accumulate tiles, flush whenever the batch reaches the configured
size, and flush the final partial batch. -/
def segment_batches_aux (segB : List CImg → List (Img ℚ)) (T bs : Nat) (padded : CImg) :
    List (Nat × Nat) → Img ℚ → List ((Nat × Nat) × CImg) → Img ℚ
  | [], m, batch => if batch.isEmpty then m else segment_tile_batch segB T m batch
  | rc :: rest, m, batch =>
    if (batch ++ [(rc, tileAt padded T rc.1 rc.2)]).length = bs then
      segment_batches_aux segB T bs padded rest
        (segment_tile_batch segB T m (batch ++ [(rc, tileAt padded T rc.1 rc.2)])) []
    else
      segment_batches_aux segB T bs padded rest m (batch ++ [(rc, tileAt padded T rc.1 rc.2)])

/-- TiledSegmentationTask._segment_tiled_in_batches (tiled.py 210-230). -/
def segment_tiled_in_batches (segB : List CImg → List (Img ℚ)) (T bs : Nat)
    (padded : CImg) (R C : Nat) (m0 : Img ℚ) : Img ℚ :=
  segment_batches_aux segB T bs padded (rcList R C) m0 []

/-- np.tile of a 2D array with reps (R, C). -/
def npTile (w : Img ℚ) (R C : Nat) : Img ℚ :=
  ⟨R * w.rows, C * w.cols, fun x y => w.px (x % w.rows) (y % w.cols)⟩

/-- TiledSegmentationTask._segment_tiled (tiled.py 153-192) without the final
binarization step (the multi-pass blender always runs with
binarize_mask=False).  Returns the unpadded raw mask together with the
unpadded tiled weight map when tile weights were supplied. -/
def segment_tiled_raw (img : CImg) (T : Nat) (seg : CImg → Img ℚ)
    (segB : List CImg → List (Img ℚ)) (bs : Nat) (bg : Nat)
    (tw : Option (Img ℚ)) (ep : PyNum × PyNum) :
    Except String (Img ℚ × Option (Img ℚ)) :=
  let image := dropAlpha img
  match padded_image_to_tile image T ep with
  | .error e => .error e
  | .ok (padded, pads) =>
    if padded.rows % T = 0 ∧ padded.cols % T = 0 then
      let R := padded.rows / T
      let C := padded.cols / T
      let m0 : Img ℚ := ⟨padded.rows, padded.cols, fun _ _ => (bg : ℚ)⟩
      let pm := if bs = 1 then segment_tiled_individually seg T padded R C m0
                else segment_tiled_in_batches segB T bs padded R C m0
      .ok (unpad_image pm pads, tw.map (fun w => unpad_image (npTile w R C) pads))
    else .error "ValueError: block shape is not compatible with image shape"

/-- An IEEE-style extended value: the possible results of numpy true
division of finite floats. -/
inductive EF where
  | fin : ℚ → EF
  | pinf : EF
  | ninf : EF
  | nan : EF
deriving DecidableEq

/-- Numpy true division of two finite values: x / 0 gives NaN when x = 0
and a signed infinity otherwise (a RuntimeWarning, not an exception). -/
def npDiv (a b : ℚ) : EF :=
  if b = 0 then (if a = 0 then .nan else if 0 < a then .pinf else .ninf)
  else .fin (a / b)

/-- IEEE comparison mask > threshold: NaN compares false, +inf true. -/
def EF.gtQ : EF → ℚ → Bool
  | .fin a, t => decide (t < a)
  | .pinf, _ => true
  | .ninf, _ => false
  | .nan, _ => false

/-- Embeds a finite mask into the IEEE-valued domain. -/
def finImg (m : Img ℚ) : Img EF := ⟨m.rows, m.cols, fun i j => .fin (m.px i j)⟩

/-- Elementwise weighted_mask / weight_sum (tiled.py line 338). -/
def npDivImg (wm ws : Img ℚ) : Img EF :=
  ⟨wm.rows, wm.cols, fun i j => npDiv (wm.px i j) (ws.px i j)⟩

/-- Lines 340-341 of tiled.py: mask = (mask > threshold).astype(np.uint8);
mask *= foreground_class.  The multiplication is performed in uint8. -/
def binarize_mask (fg : Nat) (thr : ℚ) (m : Img EF) : Img Nat :=
  ⟨m.rows, m.cols, fun i j => ((if (m.px i j).gtQ thr then 1 else 0) * fg) % 256⟩

/-- Elementwise product of two masks (mask * mask_weights). -/
def imgMul (a b : Img ℚ) : Img ℚ :=
  ⟨a.rows, a.cols, fun i j => a.px i j * b.px i j⟩

/-- Elementwise sum of two masks (the += accumulation). -/
def imgAdd (a b : Img ℚ) : Img ℚ :=
  ⟨a.rows, a.cols, fun i j => a.px i j + b.px i j⟩

/-- The pass loop of MultipassTiledSegmentationTask._segment_multipass_tiled
(tiled.py 310-332).  State: the mask of the last finished pass and the
accumulated (weighted_mask, weight_sum) pair; `multi` is the test
len(extra_pads_sequence) > 1, evaluated on the full sequence. -/
def multipassLoop (run : PyNum × PyNum → Except String (Img ℚ × Option (Img ℚ)))
    (multi : Bool) :
    List (PyNum × PyNum) → Option (Img ℚ) → Option (Img ℚ × Img ℚ) →
    Except String (Option (Img ℚ) × Option (Img ℚ × Img ℚ))
  | [], mask, acc => .ok (mask, acc)
  | ep :: rest, _, acc =>
    match run ep with
    | .error e => .error e
    | .ok (m, ow) =>
      if multi then
        match ow with
        | none => .error "TypeError: unsupported operand type NoneType"
        | some mw =>
          match acc with
          | none => multipassLoop run multi rest (some m) (some (imgMul m mw, mw))
          | some wmws =>
            multipassLoop run multi rest (some m)
              (some (imgAdd wmws.1 (imgMul m mw), imgAdd wmws.2 mw))
      else multipassLoop run multi rest (some m) acc

/-- MultipassTiledSegmentationTask._segment_multipass_tiled (tiled.py
307-343): assert the sequence is nonempty, run one binarize-off tiled pass
per offset pair, accumulate when more than one pass is configured,
normalize with numpy division, and binarize once at the end. -/
def segment_multipass_tiled (img : CImg) (T : Nat) (seg : CImg → Img ℚ)
    (segB : List CImg → List (Img ℚ)) (bs : Nat) (bg fg : Nat) (w : Img ℚ)
    (thr : ℚ) (seq : List (PyNum × PyNum)) : Except String (Img Nat) :=
  if seq.isEmpty then
    .error "AssertionError: extra_pads_sequence should not be empty" else
  match multipassLoop (fun ep => segment_tiled_raw img T seg segB bs bg (some w) ep)
      (decide (1 < seq.length)) seq none none with
  | .error e => .error e
  | .ok (mask, acc) =>
    match acc with
    | some wmws => .ok (binarize_mask fg thr (npDivImg wmws.1 wmws.2))
    | none =>
      match mask with
      | some m => .ok (binarize_mask fg thr (finImg m))
      | none => .error "TypeError: NoneType comparison"

/-- SegmentationMode (tiled.py 26-28). -/
inductive SegmentationMode where
  | HIGH_QUALITY : SegmentationMode
  | FAST : SegmentationMode
deriving DecidableEq

/-- MultipassTiledSegmentationProfile.extra_pads_sequence (tiled.py
384-388). -/
def extra_pads_sequence (mode : SegmentationMode) : List (PyNum × PyNum) :=
  if mode = SegmentationMode.HIGH_QUALITY then
    [(PyNum.int 0, PyNum.int 0), (PyNum.int 1, PyNum.int 1),
     (PyNum.int 1, PyNum.int 0), (PyNum.int 0, PyNum.int 1)]
  else [(PyNum.int 0, PyNum.int 0)]

/-- max_int_weight = (tile_size // 2) - 1 (tiled.py line 363). -/
def maxIntWeight (T : Nat) : Nat := T / 2 - 1

/-- int_weights = list(range(max+1)); int_weights + int_weights[::-1]
(tiled.py lines 364-365). -/
def intWeightsList (T : Nat) : List Nat :=
  (List.range (maxIntWeight T + 1)) ++ (List.range (maxIntWeight T + 1)).reverse

/-- Entry k of the int weight profile (0 outside the list). -/
def intWeightAt (T k : Nat) : Nat := (intWeightsList T).getD k 0

/-- The weight map built by _tile_weights (tiled.py 350-369) after the even
tile size assert: np.minimum of the row and column profiles divided by
max_int_weight.  Its side length is the length of the int weight list,
which equals tile_size for even tile sizes. -/
def tile_weights (T : Nat) : Img ℚ :=
  ⟨(intWeightsList T).length, (intWeightsList T).length,
   fun a b => ((min (intWeightAt T b) (intWeightAt T a) : Nat) : ℚ) /
              ((maxIntWeight T : Nat) : ℚ)⟩

/-- _tile_weights including its assert tile_size % 2 == 0 (tiled.py
line 362). -/
def tile_weights_checked (T : Nat) : Except String (Img ℚ) :=
  if T % 2 = 0 then .ok (tile_weights T)
  else .error "AssertionError: current method version can work only with even tile size"

/-- PcaSegmenter.combine_class_masks (pca_segmenter.py 120-126): copy the
first class mask, then for each later mask (paired with its own foreground
class id) overwrite the pixels where that mask equals its foreground id.
The input masks are not modified; the fold threads a fresh value, which is
what the .copy() in the source guarantees. -/
def combine_class_masks : List (Img Nat) → List Nat → Option (Img Nat)
  | [], _ => none
  | m0 :: rest, fg_classes =>
    some ((rest.zip fg_classes.tail).foldl
      (fun combined p =>
        ⟨combined.rows, combined.cols,
         fun i j => if p.1.px i j = p.2 then p.2 else combined.px i j⟩) m0)

/-- Projection: the raw mask of a successful tiled pass. -/
def okMask (e : Except String (Img ℚ × Option (Img ℚ))) : Img ℚ :=
  match e with
  | .ok p => p.1
  | .error _ => ⟨0, 0, fun _ _ => 0⟩

/-- Projection: the weight map of a successful tiled pass. -/
def okWts (e : Except String (Img ℚ × Option (Img ℚ))) : Img ℚ :=
  match e with
  | .ok (_, some w) => w
  | _ => ⟨0, 0, fun _ _ => 0⟩

/-- Projection: a pixel of a delivered class mask. -/
def runPx (e : Except String (Img Nat)) (i j : Nat) : Option Nat :=
  match e with
  | .ok m => some (m.px i j)
  | .error _ => none

/-- Projection: a pixel of the accumulated weight_sum of the pass loop. -/
def loopWsPx (e : Except String (Option (Img ℚ) × Option (Img ℚ × Img ℚ)))
    (i j : Nat) : Option ℚ :=
  match e with
  | .ok (_, some p) => some (p.2.px i j)
  | _ => none

/-- Whether an Except value is a success. -/
def exceptOk {ε α : Type} : Except ε α → Bool
  | .ok _ => true
  | .error _ => false

/-- A concrete 1 by 1 RGB test image. -/
def cImg1 : CImg := ⟨1, 1, 3, fun _ _ _ => 0⟩

/-- A concrete segmenter returning an all-zero tile mask. -/
def cseg0 : CImg → Img ℚ := fun t => ⟨t.rows, t.cols, fun _ _ => 0⟩

/-- Batched form of cseg0. -/
def csegB0 : List CImg → List (Img ℚ) := fun ts => ts.map cseg0

/-- A concrete segmenter returning an all-one tile mask. -/
def cseg1 : CImg → Img ℚ := fun t => ⟨t.rows, t.cols, fun _ _ => 1⟩

/-- Batched form of cseg1. -/
def csegB1 : List CImg → List (Img ℚ) := fun ts => ts.map cseg1

/-- A concrete all-zero 2 by 2 custom tile weight map. -/
def zeroImg2 : Img ℚ := ⟨2, 2, fun _ _ => 0⟩

/-- A constant integer mask. -/
def constImgN (R C v : Nat) : Img Nat := ⟨R, C, fun _ _ => v⟩

/-- Closed form of the pad descriptor computed by _padded_image_to_tile for
integer offsets. -/
def padsOfInt (rows cols T er ec : Nat) : Nat × Nat × Nat × Nat :=
  ((negMod rows T + er * T) / 2,
   negMod rows T + er * T - (negMod rows T + er * T) / 2,
   (negMod cols T + ec * T) / 2,
   negMod cols T + ec * T - (negMod cols T + ec * T) / 2)

lemma int_fdiv_two (n : Nat) : Int.fdiv (n : ℤ) 2 = ((n / 2 : Nat) : ℤ) := by
  rw [Int.fdiv_eq_tdiv (by norm_num) (by norm_num)]
  exact_mod_cast (Int.ofNat_tdiv n 2).symm

lemma dropAlpha_rows (img : CImg) : (dropAlpha img).rows = img.rows := by
  unfold dropAlpha; split <;> rfl

lemma dropAlpha_cols (img : CImg) : (dropAlpha img).cols = img.cols := by
  unfold dropAlpha; split <;> rfl

lemma padded_image_to_tile_int (img : CImg) (T : Nat) (er ec : Nat) (hT : 0 < T) :
    padded_image_to_tile img T (PyNum.int er, PyNum.int ec) =
      .ok (pad_img img ((negMod img.rows T + er * T) / 2)
            (negMod img.rows T + er * T - (negMod img.rows T + er * T) / 2)
            ((negMod img.cols T + ec * T) / 2)
            (negMod img.cols T + ec * T - (negMod img.cols T + ec * T) / 2),
          padsOfInt img.rows img.cols T er ec) := by
  have hT0 : T ≠ 0 := hT.ne'
  unfold padded_image_to_tile
  simp only [if_neg hT0, PyNum.mul, PyNum.add, PyNum.fdiv2, PyNum.sub, PyNum.isFloatB,
    PyNum.toZ, List.any_cons, List.any_nil, Bool.or_false, Bool.or_self]
  have hr : ((negMod img.rows T : ℤ) + (er : ℤ) * (T : ℤ)) = ((negMod img.rows T + er * T : Nat) : ℤ) := by
    push_cast; ring
  have hc : ((negMod img.cols T : ℤ) + (ec : ℤ) * (T : ℤ)) = ((negMod img.cols T + ec * T : Nat) : ℤ) := by
    push_cast; ring
  rw [hr, hc, int_fdiv_two, int_fdiv_two]
  have hsub : ∀ n : Nat, ((n : ℤ) - ((n / 2 : Nat) : ℤ)) = ((n - n / 2 : Nat) : ℤ) := by
    intro n
    have := Nat.div_le_self n 2
    omega
  rw [hsub, hsub]
  have hnonneg : ∀ n : Nat, decide (((n : Nat) : ℤ) < 0) = false := by
    intro n; simp
  simp only [hnonneg, Bool.or_false, Bool.false_or, Bool.or_self, if_false,
    Int.toNat_natCast]
  simp [padsOfInt]

lemma foldl_img_dims {β : Type} (f : Img ℚ → β → Img ℚ)
    (h : ∀ m b, (f m b).rows = m.rows ∧ (f m b).cols = m.cols) :
    ∀ (l : List β) (m : Img ℚ),
      (l.foldl f m).rows = m.rows ∧ (l.foldl f m).cols = m.cols := by
  intro l
  induction l with
  | nil => intro m; exact ⟨rfl, rfl⟩
  | cons b l ih =>
    intro m
    simpa [(h m b).1, (h m b).2] using ih (f m b)

lemma segment_tile_batch_dims (segB : List CImg → List (Img ℚ)) (T : Nat)
    (m : Img ℚ) (batch : List ((Nat × Nat) × CImg)) :
    (segment_tile_batch segB T m batch).rows = m.rows ∧
    (segment_tile_batch segB T m batch).cols = m.cols := by
  unfold segment_tile_batch
  exact foldl_img_dims (fun (m : Img ℚ) (p : Img ℚ × (Nat × Nat)) => writeTile T m p.2.1 p.2.2 p.1)
    (fun _ _ => ⟨rfl, rfl⟩) _ m

lemma segment_tiled_individually_dims (seg : CImg → Img ℚ) (T : Nat)
    (padded : CImg) (R C : Nat) (m0 : Img ℚ) :
    (segment_tiled_individually seg T padded R C m0).rows = m0.rows ∧
    (segment_tiled_individually seg T padded R C m0).cols = m0.cols := by
  unfold segment_tiled_individually
  exact foldl_img_dims (fun (m : Img ℚ) (rc : Nat × Nat) => writeTile T m rc.1 rc.2 (seg (tileAt padded T rc.1 rc.2)))
    (fun _ _ => ⟨rfl, rfl⟩) _ m0

lemma segment_batches_aux_dims (segB : List CImg → List (Img ℚ)) (T bs : Nat)
    (padded : CImg) :
    ∀ (rcs : List (Nat × Nat)) (m : Img ℚ) (batch : List ((Nat × Nat) × CImg)),
      (segment_batches_aux segB T bs padded rcs m batch).rows = m.rows ∧
      (segment_batches_aux segB T bs padded rcs m batch).cols = m.cols := by
  intro rcs
  induction rcs with
  | nil =>
    intro m batch
    unfold segment_batches_aux
    split
    · exact ⟨rfl, rfl⟩
    · exact segment_tile_batch_dims segB T m batch
  | cons rc rest ih =>
    intro m batch
    unfold segment_batches_aux
    split
    · have h2 := ih (segment_tile_batch segB T m (batch ++ [(rc, tileAt padded T rc.1 rc.2)])) []
      have h3 := segment_tile_batch_dims segB T m (batch ++ [(rc, tileAt padded T rc.1 rc.2)])
      exact ⟨h2.1.trans h3.1, h2.2.trans h3.2⟩
    · exact ih m (batch ++ [(rc, tileAt padded T rc.1 rc.2)])

lemma segment_tiled_in_batches_dims (segB : List CImg → List (Img ℚ)) (T bs : Nat)
    (padded : CImg) (R C : Nat) (m0 : Img ℚ) :
    (segment_tiled_in_batches segB T bs padded R C m0).rows = m0.rows ∧
    (segment_tiled_in_batches segB T bs padded R C m0).cols = m0.cols :=
  segment_batches_aux_dims segB T bs padded (rcList R C) m0 []

lemma negMod_add_mod (n T : Nat) (hT : 0 < T) : (n + negMod n T) % T = 0 := by
  unfold negMod
  rcases Nat.eq_zero_or_pos (n % T) with h | h
  · rw [h, Nat.sub_zero, Nat.mod_self, Nat.add_zero]
    exact h
  · have hlt : n % T < T := Nat.mod_lt _ hT
    have hlt2 : T - n % T < T := by omega
    rw [Nat.mod_eq_of_lt hlt2]
    have hdm := Nat.div_add_mod n T
    have he : n + (T - n % T) = T * (n / T) + T := by omega
    rw [he, Nat.add_mod, Nat.mul_mod_right, Nat.mod_self]
    simp

lemma pad_total_mod (rows er T : Nat) (hT : 0 < T) :
    (rows + (negMod rows T + er * T)) % T = 0 := by
  have h := negMod_add_mod rows T hT
  have he : rows + (negMod rows T + er * T) = (rows + negMod rows T) + er * T := by ring
  rw [he, Nat.add_mul_mod_self_right, h]

lemma segment_tiled_raw_eq_of_ok (img : CImg) (T : Nat) (seg : CImg → Img ℚ)
    (segB : List CImg → List (Img ℚ)) (bs bg : Nat) (tw : Option (Img ℚ))
    (ep : PyNum × PyNum) (padded : CImg) (pads : Nat × Nat × Nat × Nat)
    (h : padded_image_to_tile (dropAlpha img) T ep = .ok (padded, pads))
    (hr : padded.rows % T = 0) (hc : padded.cols % T = 0) :
    segment_tiled_raw img T seg segB bs bg tw ep =
      .ok (unpad_image
            (if bs = 1 then
              segment_tiled_individually seg T padded (padded.rows / T) (padded.cols / T)
                ⟨padded.rows, padded.cols, fun _ _ => (bg : ℚ)⟩
             else
              segment_tiled_in_batches segB T bs padded (padded.rows / T) (padded.cols / T)
                ⟨padded.rows, padded.cols, fun _ _ => (bg : ℚ)⟩) pads,
          tw.map (fun w => unpad_image (npTile w (padded.rows / T) (padded.cols / T)) pads)) := by
  unfold segment_tiled_raw
  simp only [h]
  rw [if_pos ⟨hr, hc⟩]

lemma segment_tiled_raw_int (img : CImg) (T : Nat) (seg : CImg → Img ℚ)
    (segB : List CImg → List (Img ℚ)) (bs bg : Nat) (tw : Option (Img ℚ))
    (er ec : Nat) (hT : 0 < T) :
    ∃ pm : Img ℚ,
      pm.rows = img.rows + (negMod img.rows T + er * T) ∧
      pm.cols = img.cols + (negMod img.cols T + ec * T) ∧
      segment_tiled_raw img T seg segB bs bg tw (PyNum.int er, PyNum.int ec) =
        .ok (unpad_image pm (padsOfInt img.rows img.cols T er ec),
          tw.map (fun w => unpad_image
            (npTile w ((img.rows + (negMod img.rows T + er * T)) / T)
              ((img.cols + (negMod img.cols T + ec * T)) / T))
            (padsOfInt img.rows img.cols T er ec))) := by
  have h1 := padded_image_to_tile_int (dropAlpha img) T er ec hT
  rw [dropAlpha_rows, dropAlpha_cols] at h1
  have habr : (negMod img.rows T + er * T) / 2 +
      (negMod img.rows T + er * T - (negMod img.rows T + er * T) / 2) =
      negMod img.rows T + er * T := by omega
  have habc : (negMod img.cols T + ec * T) / 2 +
      (negMod img.cols T + ec * T - (negMod img.cols T + ec * T) / 2) =
      negMod img.cols T + ec * T := by omega
  have hprows : (pad_img (dropAlpha img)
      ((negMod img.rows T + er * T) / 2)
      (negMod img.rows T + er * T - (negMod img.rows T + er * T) / 2)
      ((negMod img.cols T + ec * T) / 2)
      (negMod img.cols T + ec * T - (negMod img.cols T + ec * T) / 2)).rows =
      img.rows + (negMod img.rows T + er * T) := by
    show (dropAlpha img).rows + _ = _
    rw [dropAlpha_rows, habr]
  have hpcols : (pad_img (dropAlpha img)
      ((negMod img.rows T + er * T) / 2)
      (negMod img.rows T + er * T - (negMod img.rows T + er * T) / 2)
      ((negMod img.cols T + ec * T) / 2)
      (negMod img.cols T + ec * T - (negMod img.cols T + ec * T) / 2)).cols =
      img.cols + (negMod img.cols T + ec * T) := by
    show (dropAlpha img).cols + _ = _
    rw [dropAlpha_cols, habc]
  have hr' : (pad_img (dropAlpha img)
      ((negMod img.rows T + er * T) / 2)
      (negMod img.rows T + er * T - (negMod img.rows T + er * T) / 2)
      ((negMod img.cols T + ec * T) / 2)
      (negMod img.cols T + ec * T - (negMod img.cols T + ec * T) / 2)).rows % T = 0 := by
    rw [hprows]; exact pad_total_mod img.rows er T hT
  have hc' : (pad_img (dropAlpha img)
      ((negMod img.rows T + er * T) / 2)
      (negMod img.rows T + er * T - (negMod img.rows T + er * T) / 2)
      ((negMod img.cols T + ec * T) / 2)
      (negMod img.cols T + ec * T - (negMod img.cols T + ec * T) / 2)).cols % T = 0 := by
    rw [hpcols]; exact pad_total_mod img.cols ec T hT
  have h2 := segment_tiled_raw_eq_of_ok img T seg segB bs bg tw
    (PyNum.int er, PyNum.int ec) _ _ h1 hr' hc'
  rw [hprows, hpcols] at h2
  refine ⟨_, ?_, ?_, h2⟩
  · split
    · exact (segment_tiled_individually_dims _ _ _ _ _ _).1
    · exact (segment_tiled_in_batches_dims _ _ _ _ _ _ _).1
  · split
    · exact (segment_tiled_individually_dims _ _ _ _ _ _).2
    · exact (segment_tiled_in_batches_dims _ _ _ _ _ _ _).2

lemma multipassLoop_acc (run : PyNum × PyNum → Except String (Img ℚ × Option (Img ℚ))) :
    ∀ (seq : List (PyNum × PyNum)) (lastM A B : Img ℚ),
      (∀ ep ∈ seq, ∃ m mw, run ep = .ok (m, some mw)) →
      ∃ lm : Img ℚ, multipassLoop run true seq (some lastM) (some (A, B)) =
        .ok (some lm, some
          (⟨A.rows, A.cols, fun i j =>
              A.px i j + (seq.map (fun e => (okMask (run e)).px i j * (okWts (run e)).px i j)).sum⟩,
           ⟨B.rows, B.cols, fun i j =>
              B.px i j + (seq.map (fun e => (okWts (run e)).px i j)).sum⟩)) := by
  intro seq
  induction seq with
  | nil =>
    intro lastM A B _
    refine ⟨lastM, ?_⟩
    have hA : (⟨A.rows, A.cols, fun i j =>
        A.px i j + (([] : List (PyNum × PyNum)).map
          (fun e => (okMask (run e)).px i j * (okWts (run e)).px i j)).sum⟩ : Img ℚ) = A := by
      ext i j <;> simp
    have hB : (⟨B.rows, B.cols, fun i j =>
        B.px i j + (([] : List (PyNum × PyNum)).map
          (fun e => (okWts (run e)).px i j)).sum⟩ : Img ℚ) = B := by
      ext i j <;> simp
    rw [hA, hB]
    rfl
  | cons ep rest ih =>
    intro lastM A B h
    obtain ⟨m, mw, hrun⟩ := h ep (List.mem_cons_self ep rest)
    have hrest : ∀ e ∈ rest, ∃ m mw, run e = .ok (m, some mw) :=
      fun e he => h e (List.mem_cons_of_mem _ he)
    obtain ⟨lm, hloop⟩ := ih m (imgAdd A (imgMul m mw)) (imgAdd B mw) hrest
    refine ⟨lm, ?_⟩
    have hstep : multipassLoop run true (ep :: rest) (some lastM) (some (A, B)) =
        multipassLoop run true rest (some m) (some (imgAdd A (imgMul m mw), imgAdd B mw)) := by
      conv_lhs => rw [multipassLoop]
      rw [hrun]
      rfl
    rw [hstep, hloop]
    have hA : (⟨(imgAdd A (imgMul m mw)).rows, (imgAdd A (imgMul m mw)).cols, fun i j =>
        (imgAdd A (imgMul m mw)).px i j +
          (rest.map (fun e => (okMask (run e)).px i j * (okWts (run e)).px i j)).sum⟩ : Img ℚ) =
        ⟨A.rows, A.cols, fun i j =>
          A.px i j + (((ep :: rest).map
            (fun e => (okMask (run e)).px i j * (okWts (run e)).px i j))).sum⟩ := by
      ext i j
      · rfl
      · rfl
      · simp [imgAdd, imgMul, hrun, okMask, okWts]
        ring
    have hB : (⟨(imgAdd B mw).rows, (imgAdd B mw).cols, fun i j =>
        (imgAdd B mw).px i j + (rest.map (fun e => (okWts (run e)).px i j)).sum⟩ : Img ℚ) =
        ⟨B.rows, B.cols, fun i j =>
          B.px i j + (((ep :: rest).map (fun e => (okWts (run e)).px i j))).sum⟩ := by
      ext i j
      · rfl
      · rfl
      · simp [imgAdd, hrun, okWts]
        ring
    rw [hA, hB]

lemma multipassLoop_start (run : PyNum × PyNum → Except String (Img ℚ × Option (Img ℚ)))
    (ep : PyNum × PyNum) (rest : List (PyNum × PyNum))
    (h : ∀ e ∈ ep :: rest, ∃ m mw, run e = .ok (m, some mw)) :
    ∃ lm : Img ℚ, multipassLoop run true (ep :: rest) none none =
      .ok (some lm, some
        (⟨(okMask (run ep)).rows, (okMask (run ep)).cols,
          fun i j => (((ep :: rest).map
            (fun e => (okMask (run e)).px i j * (okWts (run e)).px i j))).sum⟩,
         ⟨(okWts (run ep)).rows, (okWts (run ep)).cols,
          fun i j => (((ep :: rest).map (fun e => (okWts (run e)).px i j))).sum⟩)) := by
  obtain ⟨m, mw, hrun⟩ := h ep (List.mem_cons_self ep rest)
  have hrest : ∀ e ∈ rest, ∃ m mw, run e = .ok (m, some mw) :=
    fun e he => h e (List.mem_cons_of_mem _ he)
  obtain ⟨lm, hloop⟩ := multipassLoop_acc run rest m (imgMul m mw) mw hrest
  refine ⟨lm, ?_⟩
  have hstep : multipassLoop run true (ep :: rest) none none =
      multipassLoop run true rest (some m) (some (imgMul m mw, mw)) := by
    conv_lhs => rw [multipassLoop]
    rw [hrun]
    rfl
  rw [hstep, hloop]
  have hA : (⟨(imgMul m mw).rows, (imgMul m mw).cols, fun i j =>
      (imgMul m mw).px i j +
        (rest.map (fun e => (okMask (run e)).px i j * (okWts (run e)).px i j)).sum⟩ : Img ℚ) =
      ⟨(okMask (run ep)).rows, (okMask (run ep)).cols, fun i j =>
        (((ep :: rest).map (fun e => (okMask (run e)).px i j * (okWts (run e)).px i j))).sum⟩ := by
    ext i j
    · simp [imgMul, hrun, okMask]
    · simp [imgMul, hrun, okMask]
    · simp [imgMul, hrun, okMask, okWts]
  have hB : (⟨mw.rows, mw.cols, fun i j =>
      mw.px i j + (rest.map (fun e => (okWts (run e)).px i j)).sum⟩ : Img ℚ) =
      ⟨(okWts (run ep)).rows, (okWts (run ep)).cols, fun i j =>
        (((ep :: rest).map (fun e => (okWts (run e)).px i j))).sum⟩ := by
    ext i j
    · simp [hrun, okWts]
    · simp [hrun, okWts]
    · simp [hrun, okWts]
  rw [hA, hB]

lemma multipassLoop_one (run : PyNum × PyNum → Except String (Img ℚ × Option (Img ℚ)))
    (ep : PyNum × PyNum) (m : Img ℚ) (ow : Option (Img ℚ))
    (h : run ep = .ok (m, ow)) :
    multipassLoop run false [ep] none none = .ok (some m, none) := by
  have hstep : multipassLoop run false [ep] none none =
      multipassLoop run false [] (some m) none := by
    conv_lhs => rw [multipassLoop]
    rw [h]
    rfl
  rw [hstep]
  rfl

lemma binarize_mask_px (fg : Nat) (thr : ℚ) (m : Img EF) (i j : Nat) :
    (binarize_mask fg thr m).px i j = 0 ∨ (binarize_mask fg thr m).px i j = fg % 256 := by
  unfold binarize_mask
  dsimp
  split
  · right; rw [one_mul]
  · left; rw [zero_mul, Nat.zero_mod]

lemma segment_multipass_multi (img : CImg) (T : Nat) (seg : CImg → Img ℚ)
    (segB : List CImg → List (Img ℚ)) (bs bg fg : Nat) (w : Img ℚ) (thr : ℚ)
    (ep0 : PyNum × PyNum) (rest : List (PyNum × PyNum)) (hne : rest ≠ [])
    (hok : ∀ e ∈ ep0 :: rest, ∃ m mw,
      segment_tiled_raw img T seg segB bs bg (some w) e = .ok (m, some mw)) :
    segment_multipass_tiled img T seg segB bs bg fg w thr (ep0 :: rest) =
      .ok (binarize_mask fg thr (npDivImg
        ⟨(okMask (segment_tiled_raw img T seg segB bs bg (some w) ep0)).rows,
         (okMask (segment_tiled_raw img T seg segB bs bg (some w) ep0)).cols,
         fun i j => (((ep0 :: rest).map (fun e =>
           (okMask (segment_tiled_raw img T seg segB bs bg (some w) e)).px i j *
           (okWts (segment_tiled_raw img T seg segB bs bg (some w) e)).px i j))).sum⟩
        ⟨(okWts (segment_tiled_raw img T seg segB bs bg (some w) ep0)).rows,
         (okWts (segment_tiled_raw img T seg segB bs bg (some w) ep0)).cols,
         fun i j => (((ep0 :: rest).map (fun e =>
           (okWts (segment_tiled_raw img T seg segB bs bg (some w) e)).px i j))).sum⟩)) := by
  obtain ⟨lm, hloop⟩ :=
    multipassLoop_start (fun e => segment_tiled_raw img T seg segB bs bg (some w) e)
      ep0 rest hok
  have hlen : decide (1 < (ep0 :: rest).length) = true := by
    cases rest with
    | nil => exact absurd rfl hne
    | cons b bs' => simp
  unfold segment_multipass_tiled
  simp only [List.isEmpty_cons, hlen]
  rw [hloop]
  rfl

lemma segment_multipass_one (img : CImg) (T : Nat) (seg : CImg → Img ℚ)
    (segB : List CImg → List (Img ℚ)) (bs bg fg : Nat) (w : Img ℚ) (thr : ℚ)
    (ep : PyNum × PyNum) (m : Img ℚ) (ow : Option (Img ℚ))
    (h : segment_tiled_raw img T seg segB bs bg (some w) ep = .ok (m, ow)) :
    segment_multipass_tiled img T seg segB bs bg fg w thr [ep] =
      .ok (binarize_mask fg thr (finImg m)) := by
  unfold segment_multipass_tiled
  simp only [List.isEmpty_cons]
  have hd : decide (1 < [ep].length) = false := by simp
  rw [hd, multipassLoop_one (fun e => segment_tiled_raw img T seg segB bs bg (some w) e) ep m ow h]
  rfl

lemma intWeightsList_length (T : Nat) (hT : T % 2 = 0) (h2 : 2 ≤ T) :
    (intWeightsList T).length = T := by
  unfold intWeightsList maxIntWeight
  rw [List.length_append, List.length_reverse, List.length_range]
  omega

lemma intWeightAt_eq (T k : Nat) (hT : T % 2 = 0) (h2 : 2 ≤ T) (hk : k < T) :
    intWeightAt T k = min k (T - 1 - k) := by
  unfold intWeightAt intWeightsList
  have hM : maxIntWeight T = T / 2 - 1 := rfl
  by_cases hkM : k ≤ maxIntWeight T
  · rw [List.getD_append _ _ _ _ (by rw [List.length_range]; omega)]
    rw [List.getD_eq_getElem _ _ (by rw [List.length_range]; omega)]
    rw [List.getElem_range]
    omega
  · rw [List.getD_append_right _ _ _ _ (by rw [List.length_range]; omega)]
    rw [List.length_range]
    rw [List.getD_eq_getElem _ _
      (by rw [List.length_reverse, List.length_range]; omega)]
    rw [List.getElem_reverse]
    simp only [List.getElem_range, List.length_range]
    omega

lemma intWeightAt_le_max (T k : Nat) : intWeightAt T k ≤ maxIntWeight T := by
  unfold intWeightAt
  by_cases hk : k < (intWeightsList T).length
  · rw [List.getD_eq_getElem _ _ hk]
    have hmem := List.getElem_mem hk
    unfold intWeightsList at hmem
    rcases List.mem_append.mp hmem with h | h
    · exact Nat.lt_succ_iff.mp (List.mem_range.mp h)
    · exact Nat.lt_succ_iff.mp (List.mem_range.mp (List.mem_reverse.mp h))
  · rw [List.getD_eq_default _ _ (Nat.le_of_not_lt hk)]
    exact Nat.zero_le _

lemma tile_weights_px_eq (T a b : Nat) (hT : T % 2 = 0) (h2 : 2 ≤ T)
    (ha : a < T) (hb : b < T) :
    (tile_weights T).px a b =
      ((min (min a (T - 1 - a)) (min b (T - 1 - b)) : Nat) : ℚ) /
      ((T / 2 - 1 : Nat) : ℚ) := by
  unfold tile_weights
  dsimp only
  rw [intWeightAt_eq T a hT h2 ha, intWeightAt_eq T b hT h2 hb]
  have hm : min (min b (T - 1 - b)) (min a (T - 1 - a)) =
      min (min a (T - 1 - a)) (min b (T - 1 - b)) := by omega
  rw [hm]
  rfl

lemma tile_weights_nonneg (T a b : Nat) : 0 ≤ (tile_weights T).px a b := by
  unfold tile_weights
  dsimp only
  positivity

lemma tile_weights_le_one (T a b : Nat) (h4 : 4 ≤ T) :
    (tile_weights T).px a b ≤ 1 := by
  unfold tile_weights
  dsimp only
  rw [div_le_one (by exact_mod_cast Nat.pos_of_ne_zero (by unfold maxIntWeight; omega))]
  exact_mod_cast le_trans (Nat.min_le_right _ _) (intWeightAt_le_max T a)

lemma tile_weights_pos (T a b : Nat) (hT : T % 2 = 0) (h4 : 4 ≤ T)
    (ha1 : 1 ≤ a) (ha2 : a ≤ T - 2) (hb1 : 1 ≤ b) (hb2 : b ≤ T - 2) :
    0 < (tile_weights T).px a b := by
  rw [tile_weights_px_eq T a b hT (by omega) (by omega) (by omega)]
  apply div_pos
  · exact_mod_cast Nat.pos_of_ne_zero (by omega)
  · exact_mod_cast Nat.pos_of_ne_zero (by omega)

lemma good_shift (T x : Nat) (hT : T % 2 = 0) (h4 : 4 ≤ T) :
    (1 ≤ x % T ∧ x % T ≤ T - 2) ∨
    (1 ≤ (x + T / 2) % T ∧ (x + T / 2) % T ≤ T - 2) := by
  have hT0 : 0 < T := by omega
  have h1 : x % T < T := Nat.mod_lt _ hT0
  have h2 : (x + T / 2) % T = (x % T + T / 2) % T := by
    rw [Nat.add_mod, Nat.mod_eq_of_lt (show T / 2 < T by omega)]
  rcases Nat.lt_or_ge (x % T) 1 with h | h
  · right
    have hx0 : x % T = 0 := by omega
    rw [h2, hx0, Nat.zero_add, Nat.mod_eq_of_lt (by omega)]
    omega
  rcases Nat.lt_or_ge (x % T) (T - 1) with h' | h'
  · left; omega
  · right
    have hx : x % T = T - 1 := by omega
    rw [h2, hx]
    have he : T - 1 + T / 2 = T + (T / 2 - 1) := by omega
    rw [he, Nat.add_mod_left, Nat.mod_eq_of_lt (by omega)]
    omega

lemma okWts_run_int (img : CImg) (T : Nat) (seg : CImg → Img ℚ)
    (segB : List CImg → List (Img ℚ)) (bs bg : Nat) (w : Img ℚ)
    (er ec : Nat) (hT : 0 < T) :
    okWts (segment_tiled_raw img T seg segB bs bg (some w) (PyNum.int er, PyNum.int ec)) =
      unpad_image (npTile w ((img.rows + (negMod img.rows T + er * T)) / T)
        ((img.cols + (negMod img.cols T + ec * T)) / T))
        (padsOfInt img.rows img.cols T er ec) := by
  obtain ⟨pm, _, _, heq⟩ := segment_tiled_raw_int img T seg segB bs bg (some w) er ec hT
  rw [heq]
  rfl

lemma run_int_is_ok (img : CImg) (T : Nat) (seg : CImg → Img ℚ)
    (segB : List CImg → List (Img ℚ)) (bs bg : Nat) (w : Img ℚ)
    (er ec : Nat) (hT : 0 < T) :
    ∃ m mw, segment_tiled_raw img T seg segB bs bg (some w)
      (PyNum.int er, PyNum.int ec) = .ok (m, some mw) := by
  obtain ⟨pm, _, _, heq⟩ := segment_tiled_raw_int img T seg segB bs bg (some w) er ec hT
  refine ⟨unpad_image pm (padsOfInt img.rows img.cols T er ec),
    unpad_image (npTile w ((img.rows + (negMod img.rows T + er * T)) / T)
      ((img.cols + (negMod img.cols T + ec * T)) / T))
      (padsOfInt img.rows img.cols T er ec), ?_⟩
  rw [heq]
  rfl

lemma okWts_px_int (img : CImg) (T : Nat) (seg : CImg → Img ℚ)
    (segB : List CImg → List (Img ℚ)) (bs bg : Nat) (w : Img ℚ)
    (er ec i j : Nat) (hT : 0 < T) :
    (okWts (segment_tiled_raw img T seg segB bs bg (some w)
        (PyNum.int er, PyNum.int ec))).px i j =
      w.px ((i + (negMod img.rows T + er * T) / 2) % w.rows)
           ((j + (negMod img.cols T + ec * T) / 2) % w.cols) := by
  rw [okWts_run_int img T seg segB bs bg w er ec hT]
  rfl

lemma tile_weights_rows (T : Nat) (hT : T % 2 = 0) (h2 : 2 ≤ T) :
    (tile_weights T).rows = T := intWeightsList_length T hT h2

lemma tile_weights_cols (T : Nat) (hT : T % 2 = 0) (h2 : 2 ≤ T) :
    (tile_weights T).cols = T := intWeightsList_length T hT h2

lemma segment_tile_batch_eq_foldl (seg : CImg → Img ℚ)
    (segB : List CImg → List (Img ℚ)) (T : Nat)
    (hB : ∀ ts, segB ts = ts.map seg) (m : Img ℚ)
    (batch : List ((Nat × Nat) × CImg)) :
    segment_tile_batch segB T m batch =
      batch.foldl (fun m p => writeTile T m p.1.1 p.1.2 (seg p.2)) m := by
  unfold segment_tile_batch
  rw [hB, List.map_map, List.zip_map', List.foldl_map]
  rfl

lemma segment_batches_aux_eq (seg : CImg → Img ℚ)
    (segB : List CImg → List (Img ℚ)) (T bs : Nat) (padded : CImg)
    (hB : ∀ ts, segB ts = ts.map seg) :
    ∀ (rcs : List (Nat × Nat)) (m : Img ℚ) (batch : List ((Nat × Nat) × CImg)),
      segment_batches_aux segB T bs padded rcs m batch =
        (batch ++ rcs.map (fun rc => (rc, tileAt padded T rc.1 rc.2))).foldl
          (fun m p => writeTile T m p.1.1 p.1.2 (seg p.2)) m := by
  intro rcs
  induction rcs with
  | nil =>
    intro m batch
    unfold segment_batches_aux
    by_cases h : batch.isEmpty
    · rw [if_pos h]
      have hb : batch = [] := List.isEmpty_iff.mp h
      simp [hb]
    · rw [if_neg h]
      rw [segment_tile_batch_eq_foldl seg segB T hB]
      simp
  | cons rc rest ih =>
    intro m batch
    unfold segment_batches_aux
    by_cases h : (batch ++ [(rc, tileAt padded T rc.1 rc.2)]).length = bs
    · rw [if_pos h, ih, segment_tile_batch_eq_foldl seg segB T hB]
      rw [List.nil_append, ← List.foldl_append]
      rw [List.append_assoc]
      rfl
    · rw [if_neg h, ih]
      rw [List.append_assoc]
      rfl

lemma segment_tiled_in_batches_eq_individually (seg : CImg → Img ℚ)
    (segB : List CImg → List (Img ℚ)) (T bs : Nat) (padded : CImg)
    (R C : Nat) (m0 : Img ℚ) (hB : ∀ ts, segB ts = ts.map seg) :
    segment_tiled_in_batches segB T bs padded R C m0 =
      segment_tiled_individually seg T padded R C m0 := by
  unfold segment_tiled_in_batches segment_tiled_individually
  rw [segment_batches_aux_eq seg segB T bs padded hB]
  rw [List.nil_append, List.foldl_map]

lemma segment_tiled_raw_bs_eq (img : CImg) (T : Nat) (seg : CImg → Img ℚ)
    (segB : List CImg → List (Img ℚ)) (bs bg : Nat) (tw : Option (Img ℚ))
    (ep : PyNum × PyNum) (hB : ∀ ts, segB ts = ts.map seg) :
    segment_tiled_raw img T seg segB bs bg tw ep =
      segment_tiled_raw img T seg segB 1 bg tw ep := by
  unfold segment_tiled_raw
  cases h : padded_image_to_tile (dropAlpha img) T ep with
  | error e => simp only [h]
  | ok pp =>
    obtain ⟨padded, pads⟩ := pp
    simp only [h]
    by_cases hc : padded.rows % T = 0 ∧ padded.cols % T = 0
    · rw [if_pos hc, if_pos hc]
      have hd : (if bs = 1 then
          segment_tiled_individually seg T padded (padded.rows / T) (padded.cols / T)
            ⟨padded.rows, padded.cols, fun _ _ => (bg : ℚ)⟩
        else
          segment_tiled_in_batches segB T bs padded (padded.rows / T) (padded.cols / T)
            ⟨padded.rows, padded.cols, fun _ _ => (bg : ℚ)⟩) =
          segment_tiled_individually seg T padded (padded.rows / T) (padded.cols / T)
            ⟨padded.rows, padded.cols, fun _ _ => (bg : ℚ)⟩ := by
        split
        · rfl
        · exact segment_tiled_in_batches_eq_individually seg segB T bs padded _ _ _ hB
      rw [hd]
      simp
    · rw [if_neg hc, if_neg hc]

/-- C1 counterexample: the spec allows fractional offsets (0.5 with
tile_size 2 gives the integral pad 0.5 * 2 = 1), but a Python float offset
makes pad_width float-typed, so np.pad raises TypeError and no mask is
returned at all; the TiledPass result is an error, not a mask of the
original dimensions.  The second conjunct records that the offset is one
the spec allows: 0.5 * tile_size is a whole number of pixels. -/
theorem c1_counterexample :
    exceptOk (segment_tiled_raw cImg1 2 cseg0 csegB0 1 0 none
      (PyNum.float (1/2), PyNum.int 0)) = false ∧
    PyNum.mul (PyNum.float (1/2)) (PyNum.int 2) = PyNum.float 1 := by
  constructor
  · rfl
  · show PyNum.float ((1 / 2 : ℚ) * ((2 : ℤ) : ℚ)) = PyNum.float 1
    norm_num

/-- C1 (amended): for offsets with nonnegative integer components the
TiledPass succeeds and the returned raw mask has exactly the spatial
dimensions of the input image, and unpadding the padded image with the
stored pad descriptor restores exactly the original spatial dimensions. -/
theorem c1_amended_theorem (img : CImg) (T : Nat) (seg : CImg → Img ℚ)
    (segB : List CImg → List (Img ℚ)) (bs bg : Nat) (tw : Option (Img ℚ))
    (er ec : Nat) (hT : 0 < T) :
    (∃ m ow, segment_tiled_raw img T seg segB bs bg tw
        (PyNum.int er, PyNum.int ec) = .ok (m, ow) ∧
      m.rows = img.rows ∧ m.cols = img.cols) ∧
    (∃ p pads, padded_image_to_tile img T (PyNum.int er, PyNum.int ec) = .ok (p, pads) ∧
      (unpad_image (⟨p.rows, p.cols, fun _ _ => (0 : ℚ)⟩ : Img ℚ) pads).rows = img.rows ∧
      (unpad_image (⟨p.rows, p.cols, fun _ _ => (0 : ℚ)⟩ : Img ℚ) pads).cols = img.cols) := by
  constructor
  · obtain ⟨pm, h1, h2, heq⟩ := segment_tiled_raw_int img T seg segB bs bg tw er ec hT
    refine ⟨_, _, heq, ?_, ?_⟩
    · show pm.rows - _ - _ = img.rows
      rw [h1]
      unfold padsOfInt
      dsimp only
      omega
    · show pm.cols - _ - _ = img.cols
      rw [h2]
      unfold padsOfInt
      dsimp only
      omega
  · have h := padded_image_to_tile_int img T er ec hT
    refine ⟨_, _, h, ?_, ?_⟩
    · unfold unpad_image pad_img padsOfInt
      dsimp only
      omega
    · unfold unpad_image pad_img padsOfInt
      dsimp only
      omega

/-- C1 witness: the amended theorem applied at the concrete 1 by 1 RGB
image with tile size 2 and the zero integer offset. -/
theorem c1_witness :
    0 < 2 ∧
    (∃ m ow, segment_tiled_raw cImg1 2 cseg0 csegB0 1 0 none
        (PyNum.int 0, PyNum.int 0) = .ok (m, ow) ∧
      m.rows = cImg1.rows ∧ m.cols = cImg1.cols) :=
  ⟨by decide, (c1_amended_theorem cImg1 2 cseg0 csegB0 1 0 none 0 0 (by decide)).1⟩

/-- C2: the blender uses exactly the offset sequences [(0,0), (1,1), (1,0),
(0,1)] for HIGH_QUALITY and [(0,0)] for FAST; every pass runs with
binarization off (the per-pass results are those of segment_tiled_raw);
with more than one pass the delivered mask is the binarization of the
pixelwise quotient of the accumulated weighted sum of raw masks by the
accumulated weight sum, scaled to the foreground class id; with a single
pass normalization is skipped and the single raw mask is binarized
directly. -/
theorem c2_theorem :
    (extra_pads_sequence SegmentationMode.HIGH_QUALITY =
      [(PyNum.int 0, PyNum.int 0), (PyNum.int 1, PyNum.int 1),
       (PyNum.int 1, PyNum.int 0), (PyNum.int 0, PyNum.int 1)] ∧
     extra_pads_sequence SegmentationMode.FAST = [(PyNum.int 0, PyNum.int 0)]) ∧
    (∀ (img : CImg) (T : Nat) (seg : CImg → Img ℚ) (segB : List CImg → List (Img ℚ))
       (bs bg fg : Nat) (w : Img ℚ) (thr : ℚ)
       (ep0 : PyNum × PyNum) (rest : List (PyNum × PyNum)), rest ≠ [] →
       (∀ e ∈ ep0 :: rest, ∃ m mw,
         segment_tiled_raw img T seg segB bs bg (some w) e = .ok (m, some mw)) →
       segment_multipass_tiled img T seg segB bs bg fg w thr (ep0 :: rest) =
         .ok (binarize_mask fg thr (npDivImg
           ⟨(okMask (segment_tiled_raw img T seg segB bs bg (some w) ep0)).rows,
            (okMask (segment_tiled_raw img T seg segB bs bg (some w) ep0)).cols,
            fun i j => (((ep0 :: rest).map (fun e =>
              (okMask (segment_tiled_raw img T seg segB bs bg (some w) e)).px i j *
              (okWts (segment_tiled_raw img T seg segB bs bg (some w) e)).px i j))).sum⟩
           ⟨(okWts (segment_tiled_raw img T seg segB bs bg (some w) ep0)).rows,
            (okWts (segment_tiled_raw img T seg segB bs bg (some w) ep0)).cols,
            fun i j => (((ep0 :: rest).map (fun e =>
              (okWts (segment_tiled_raw img T seg segB bs bg (some w) e)).px i j))).sum⟩))) ∧
    (∀ (img : CImg) (T : Nat) (seg : CImg → Img ℚ) (segB : List CImg → List (Img ℚ))
       (bs bg fg : Nat) (w : Img ℚ) (thr : ℚ)
       (ep : PyNum × PyNum) (m : Img ℚ) (ow : Option (Img ℚ)),
       segment_tiled_raw img T seg segB bs bg (some w) ep = .ok (m, ow) →
       segment_multipass_tiled img T seg segB bs bg fg w thr [ep] =
         .ok (binarize_mask fg thr (finImg m))) :=
  ⟨⟨rfl, rfl⟩,
   fun img T seg segB bs bg fg w thr ep0 rest hne hok =>
     segment_multipass_multi img T seg segB bs bg fg w thr ep0 rest hne hok,
   fun img T seg segB bs bg fg w thr ep m ow h =>
     segment_multipass_one img T seg segB bs bg fg w thr ep m ow h⟩

/-- C2 witness: the multi-pass identity applied to the concrete
HIGH_QUALITY offset list on the 1 by 1 test image, and the single-pass
identity applied to the FAST offset. -/
theorem c2_witness :
    (∃ mask, segment_multipass_tiled cImg1 2 cseg0 csegB0 1 0 1 (tile_weights 2) (1/2)
      ((PyNum.int 0, PyNum.int 0) :: [(PyNum.int 1, PyNum.int 1),
       (PyNum.int 1, PyNum.int 0), (PyNum.int 0, PyNum.int 1)]) = .ok mask) ∧
    (∃ mask, segment_multipass_tiled cImg1 2 cseg0 csegB0 1 0 1 (tile_weights 2) (1/2)
      [(PyNum.int 0, PyNum.int 0)] = .ok mask) := by
  constructor
  · refine ⟨_, c2_theorem.2.1 cImg1 2 cseg0 csegB0 1 0 1 (tile_weights 2) (1/2)
      (PyNum.int 0, PyNum.int 0)
      [(PyNum.int 1, PyNum.int 1), (PyNum.int 1, PyNum.int 0), (PyNum.int 0, PyNum.int 1)]
      (by decide) ?_⟩
    intro e he
    fin_cases he
    · exact ⟨_, _, rfl⟩
    · exact ⟨_, _, rfl⟩
    · exact ⟨_, _, rfl⟩
    · exact ⟨_, _, rfl⟩
  · exact ⟨_, c2_theorem.2.2 cImg1 2 cseg0 csegB0 1 0 1 (tile_weights 2) (1/2)
      (PyNum.int 0, PyNum.int 0) _ _ rfl⟩

/-- C3 counterexample: with tile size 2 (even, as the claim allows) the
generated weight map is degenerate (its normalization divides by zero), so
after all four HIGH_QUALITY passes on a 1 by 1 image the accumulated
weight_sum at pixel (0,0) is 0, not strictly positive. -/
theorem c3_counterexample :
    loopWsPx (multipassLoop
      (fun e => segment_tiled_raw cImg1 2 cseg0 csegB0 1 0 (some (tile_weights 2)) e)
      (decide (1 < (extra_pads_sequence SegmentationMode.HIGH_QUALITY).length))
      (extra_pads_sequence SegmentationMode.HIGH_QUALITY) none none) 0 0 = some 0 ∧
    2 % 2 = 0 ∧ ¬ ((0 : ℚ) < 0) := by
  refine ⟨by with_unfolding_all decide, rfl, by norm_num⟩

/-- C3 (amended): for every image and every even tile size of at least 4,
after accumulating all four HIGH_QUALITY passes with the generated
tile-weight map the accumulated weight_sum is strictly positive at every
pixel of the unpadded image (indeed at every pixel position). -/
theorem c3_amended_theorem (img : CImg) (T : Nat) (seg : CImg → Img ℚ)
    (segB : List CImg → List (Img ℚ)) (bs bg i j : Nat)
    (hT2 : T % 2 = 0) (hT4 : 4 ≤ T) (hi : i < img.rows) (hj : j < img.cols) :
    ∃ lm wm ws,
      multipassLoop
        (fun e => segment_tiled_raw img T seg segB bs bg (some (tile_weights T)) e)
        (decide (1 < (extra_pads_sequence SegmentationMode.HIGH_QUALITY).length))
        (extra_pads_sequence SegmentationMode.HIGH_QUALITY) none none =
        .ok (some lm, some (wm, ws)) ∧
      0 < ws.px i j := by
  have hT0 : 0 < T := by omega
  have hseq : extra_pads_sequence SegmentationMode.HIGH_QUALITY =
      (PyNum.int ((0:ℕ):ℤ), PyNum.int ((0:ℕ):ℤ)) ::
      [(PyNum.int ((1:ℕ):ℤ), PyNum.int ((1:ℕ):ℤ)),
       (PyNum.int ((1:ℕ):ℤ), PyNum.int ((0:ℕ):ℤ)),
       (PyNum.int ((0:ℕ):ℤ), PyNum.int ((1:ℕ):ℤ))] := by decide
  rw [hseq]
  have hok : ∀ e ∈ (PyNum.int ((0:ℕ):ℤ), PyNum.int ((0:ℕ):ℤ)) ::
      [(PyNum.int ((1:ℕ):ℤ), PyNum.int ((1:ℕ):ℤ)),
       (PyNum.int ((1:ℕ):ℤ), PyNum.int ((0:ℕ):ℤ)),
       (PyNum.int ((0:ℕ):ℤ), PyNum.int ((1:ℕ):ℤ))], ∃ m mw,
      segment_tiled_raw img T seg segB bs bg (some (tile_weights T)) e = .ok (m, some mw) := by
    intro e he
    fin_cases he
    · exact run_int_is_ok img T seg segB bs bg (tile_weights T) 0 0 hT0
    · exact run_int_is_ok img T seg segB bs bg (tile_weights T) 1 1 hT0
    · exact run_int_is_ok img T seg segB bs bg (tile_weights T) 1 0 hT0
    · exact run_int_is_ok img T seg segB bs bg (tile_weights T) 0 1 hT0
  obtain ⟨lm, hloop⟩ := multipassLoop_start
    (fun e => segment_tiled_raw img T seg segB bs bg (some (tile_weights T)) e) _ _ hok
  have hd : decide (1 < ((PyNum.int ((0:ℕ):ℤ), PyNum.int ((0:ℕ):ℤ)) ::
      [(PyNum.int ((1:ℕ):ℤ), PyNum.int ((1:ℕ):ℤ)),
       (PyNum.int ((1:ℕ):ℤ), PyNum.int ((0:ℕ):ℤ)),
       (PyNum.int ((0:ℕ):ℤ), PyNum.int ((1:ℕ):ℤ))] : List (PyNum × PyNum)).length) = true := by
    decide
  rw [hd]
  refine ⟨lm, _, _, hloop, ?_⟩
  dsimp only
  simp only [List.map_cons, List.map_nil, List.sum_cons, List.sum_nil]
  rw [okWts_px_int img T seg segB bs bg (tile_weights T) 0 0 i j hT0,
      okWts_px_int img T seg segB bs bg (tile_weights T) 1 1 i j hT0,
      okWts_px_int img T seg segB bs bg (tile_weights T) 1 0 i j hT0,
      okWts_px_int img T seg segB bs bg (tile_weights T) 0 1 i j hT0]
  rw [tile_weights_rows T hT2 (by omega), tile_weights_cols T hT2 (by omega)]
  simp only [Nat.zero_mul, Nat.add_zero, Nat.one_mul]
  have hsr : (negMod img.rows T + T) / 2 = negMod img.rows T / 2 + T / 2 := by omega
  have hsc : (negMod img.cols T + T) / 2 = negMod img.cols T / 2 + T / 2 := by omega
  rw [hsr, hsc]
  have har : i + (negMod img.rows T / 2 + T / 2) = i + negMod img.rows T / 2 + T / 2 := by
    omega
  have hac : j + (negMod img.cols T / 2 + T / 2) = j + negMod img.cols T / 2 + T / 2 := by
    omega
  rw [har, hac]
  set x := i + negMod img.rows T / 2 with hx
  set y := j + negMod img.cols T / 2 with hy
  have hnn : ∀ a b : Nat, 0 ≤ (tile_weights T).px a b := fun a b => tile_weights_nonneg T a b
  rcases good_shift T x hT2 hT4 with hr | hr <;> rcases good_shift T y hT2 hT4 with hc | hc
  · have hpos := tile_weights_pos T (x % T) (y % T) hT2 hT4 hr.1 hr.2 hc.1 hc.2
    have n2 := hnn ((x + T / 2) % T) ((y + T / 2) % T)
    have n3 := hnn ((x + T / 2) % T) (y % T)
    have n4 := hnn (x % T) ((y + T / 2) % T)
    linarith
  · have hpos := tile_weights_pos T (x % T) ((y + T / 2) % T) hT2 hT4 hr.1 hr.2 hc.1 hc.2
    have n1 := hnn (x % T) (y % T)
    have n2 := hnn ((x + T / 2) % T) ((y + T / 2) % T)
    have n3 := hnn ((x + T / 2) % T) (y % T)
    linarith
  · have hpos := tile_weights_pos T ((x + T / 2) % T) (y % T) hT2 hT4 hr.1 hr.2 hc.1 hc.2
    have n1 := hnn (x % T) (y % T)
    have n2 := hnn ((x + T / 2) % T) ((y + T / 2) % T)
    have n4 := hnn (x % T) ((y + T / 2) % T)
    linarith
  · have hpos := tile_weights_pos T ((x + T / 2) % T) ((y + T / 2) % T) hT2 hT4 hr.1 hr.2 hc.1 hc.2
    have n1 := hnn (x % T) (y % T)
    have n3 := hnn ((x + T / 2) % T) (y % T)
    have n4 := hnn (x % T) ((y + T / 2) % T)
    linarith

/-- C3 witness: the amended theorem applied at tile size 4 on the concrete
1 by 1 image, at pixel (0,0). -/
theorem c3_witness :
    4 % 2 = 0 ∧ 4 ≤ 4 ∧ 0 < cImg1.rows ∧ 0 < cImg1.cols ∧
    (∃ lm wm ws,
      multipassLoop
        (fun e => segment_tiled_raw cImg1 4 cseg0 csegB0 1 0 (some (tile_weights 4)) e)
        (decide (1 < (extra_pads_sequence SegmentationMode.HIGH_QUALITY).length))
        (extra_pads_sequence SegmentationMode.HIGH_QUALITY) none none =
        .ok (some lm, some (wm, ws)) ∧
      0 < ws.px 0 0) :=
  ⟨rfl, by decide, by decide, by decide,
   c3_amended_theorem cImg1 4 cseg0 csegB0 1 0 0 0 (by decide) (by decide) (by decide) (by decide)⟩

/-- C4: combine_class_masks starts from a copy of the first class mask;
appending one more (mask, foreground id) pair to the input overwrites, in
the previous result, exactly the pixels where that mask equals its own
foreground id (the stated overwrite recurrence, in order); consequently a
later all-background mask never erases earlier foreground and a later
all-foreground mask dominates everywhere.  The embedding is a pure
function of its inputs, matching the no-side-effects clause: the source
copies the first mask and never writes to its arguments. -/
theorem c4_theorem :
    (∀ (m0 : Img Nat) (fgs : List Nat), combine_class_masks [m0] fgs = some m0) ∧
    (∀ (m0 : Img Nat) (rest : List (Img Nat)) (f0 : Nat) (fgs : List Nat)
       (mN : Img Nat) (fgN : Nat), rest.length = fgs.length →
       combine_class_masks (m0 :: rest ++ [mN]) (f0 :: fgs ++ [fgN]) =
         (combine_class_masks (m0 :: rest) (f0 :: fgs)).map (fun combined =>
           ⟨combined.rows, combined.cols,
            fun i j => if mN.px i j = fgN then fgN else combined.px i j⟩)) ∧
    (∀ (R C fA bB fB x : Nat), bB ≠ fB →
       combine_class_masks [constImgN R C fA, constImgN R C bB] [x, fB] =
         some (constImgN R C fA)) ∧
    (∀ (R C bA fB x : Nat),
       combine_class_masks [constImgN R C bA, constImgN R C fB] [x, fB] =
         some (constImgN R C fB)) := by
  refine ⟨?_, ?_, ?_, ?_⟩
  · intro m0 fgs
    rfl
  · intro m0 rest f0 fgs mN fgN hlen
    have hL : combine_class_masks (m0 :: rest ++ [mN]) (f0 :: fgs ++ [fgN]) =
        some (((rest ++ [mN]).zip (fgs ++ [fgN])).foldl
          (fun combined p =>
            ⟨combined.rows, combined.cols,
             fun i j => if p.1.px i j = p.2 then p.2 else combined.px i j⟩) m0) := rfl
    have hR : combine_class_masks (m0 :: rest) (f0 :: fgs) =
        some ((rest.zip fgs).foldl
          (fun combined p =>
            ⟨combined.rows, combined.cols,
             fun i j => if p.1.px i j = p.2 then p.2 else combined.px i j⟩) m0) := rfl
    rw [hL, hR]
    rw [List.zip_append hlen, List.foldl_append]
    rfl
  · intro R C fA bB fB x hne
    have hL : combine_class_masks [constImgN R C fA, constImgN R C bB] [x, fB] =
        some ⟨(constImgN R C fA).rows, (constImgN R C fA).cols,
          fun i j => if (constImgN R C bB).px i j = fB then fB
                     else (constImgN R C fA).px i j⟩ := rfl
    rw [hL]
    congr 1
    ext i j
    · rfl
    · rfl
    · simp [constImgN, hne]
  · intro R C bA fB x
    have hL : combine_class_masks [constImgN R C bA, constImgN R C fB] [x, fB] =
        some ⟨(constImgN R C bA).rows, (constImgN R C bA).cols,
          fun i j => if (constImgN R C fB).px i j = fB then fB
                     else (constImgN R C bA).px i j⟩ := rfl
    rw [hL]
    congr 1
    ext i j
    · rfl
    · rfl
    · simp [constImgN]

/-- C4 witness: the combination recurrence and the two domination facts at
concrete 1 by 1 masks (background id 0, foreground id 1); the hypothesis
of the all-background case, 0 differs from 1, holds. -/
theorem c4_witness :
    ([constImgN 1 1 5].length = [5].length) ∧
    combine_class_masks (constImgN 1 1 0 :: [constImgN 1 1 5] ++ [constImgN 1 1 7])
        (0 :: [5] ++ [7]) =
      (combine_class_masks (constImgN 1 1 0 :: [constImgN 1 1 5]) (0 :: [5])).map
        (fun combined => ⟨combined.rows, combined.cols,
          fun i j => if (constImgN 1 1 7).px i j = 7 then 7 else combined.px i j⟩) ∧
    ((0 : Nat) ≠ 1 ∧
     combine_class_masks [constImgN 1 1 1, constImgN 1 1 0] [1, 1] =
       some (constImgN 1 1 1)) ∧
    combine_class_masks [constImgN 1 1 0, constImgN 1 1 1] [0, 1] =
      some (constImgN 1 1 1) :=
  ⟨rfl,
   c4_theorem.2.1 (constImgN 1 1 0) [constImgN 1 1 5] 0 [5] (constImgN 1 1 7) 7 rfl,
   ⟨by decide, c4_theorem.2.2.1 1 1 1 0 1 1 (by decide)⟩,
   c4_theorem.2.2.2 1 1 0 1 0⟩

/-- C5: assuming the segmenter's batched inference equals elementwise
single-tile inference (same length, order preserved), the batched tiling
path produces a result identical to the per-tile sequential path (batch
size 1) for the same image, offsets and tile weights; this holds for every
batch size, in particular each batch size greater than 1 with the final
partial batch flushed. -/
theorem c5_theorem (img : CImg) (T : Nat) (seg : CImg → Img ℚ)
    (segB : List CImg → List (Img ℚ)) (bs bg : Nat) (tw : Option (Img ℚ))
    (ep : PyNum × PyNum) (hB : ∀ ts, segB ts = ts.map seg) :
    segment_tiled_raw img T seg segB bs bg tw ep =
      segment_tiled_raw img T seg segB 1 bg tw ep :=
  segment_tiled_raw_bs_eq img T seg segB bs bg tw ep hB

/-- C5 witness: the equivalence applied with batch size 2 to the concrete
test image and the elementwise-consistent concrete batched segmenter. -/
theorem c5_witness :
    (∀ ts, csegB0 ts = ts.map cseg0) ∧
    segment_tiled_raw cImg1 2 cseg0 csegB0 2 0 (some (tile_weights 2))
        (PyNum.int 0, PyNum.int 0) =
      segment_tiled_raw cImg1 2 cseg0 csegB0 1 0 (some (tile_weights 2))
        (PyNum.int 0, PyNum.int 0) :=
  ⟨fun _ => rfl,
   c5_theorem cImg1 2 cseg0 csegB0 2 0 (some (tile_weights 2))
     (PyNum.int 0, PyNum.int 0) (fun _ => rfl)⟩

/-- C6 counterexample: with background class id 7 and foreground class id
9, a FAST run on the 1 by 1 test image delivers the pixel value 0, which
is neither the background id nor the foreground id of the profile: the
final binarization maps sub-threshold pixels to 0, not to the background
class id. -/
theorem c6_counterexample :
    runPx (segment_multipass_tiled cImg1 2 cseg0 csegB0 1 7 9 (tile_weights 2) (1/2)
      (extra_pads_sequence SegmentationMode.FAST)) 0 0 = some 0 ∧
    (0 : Nat) ≠ 7 ∧ (0 : Nat) ≠ 9 :=
  ⟨by with_unfolding_all decide, by decide, by decide⟩

/-- C6 (amended): whenever every pass succeeds, the multipass blender
delivers an integer mask whose pixels all lie in the set containing 0 and
the foreground id reduced mod 256 (uint8 arithmetic); when the background
id is 0 and the foreground id is below 256 this set is exactly the
background and foreground ids of the profile. -/
theorem c6_amended_theorem (img : CImg) (T : Nat) (seg : CImg → Img ℚ)
    (segB : List CImg → List (Img ℚ)) (bs bg fg : Nat) (w : Img ℚ) (thr : ℚ)
    (ep0 : PyNum × PyNum) (rest : List (PyNum × PyNum))
    (hok : ∀ e ∈ ep0 :: rest, ∃ m mw,
      segment_tiled_raw img T seg segB bs bg (some w) e = .ok (m, some mw)) :
    ∃ m, segment_multipass_tiled img T seg segB bs bg fg w thr (ep0 :: rest) = .ok m ∧
      (∀ i j, m.px i j = 0 ∨ m.px i j = fg % 256) ∧
      (bg = 0 → fg < 256 → ∀ i j, m.px i j = bg ∨ m.px i j = fg) := by
  have hmem : ∀ m : Img EF,
      (∀ i j, (binarize_mask fg thr m).px i j = 0 ∨
        (binarize_mask fg thr m).px i j = fg % 256) ∧
      (bg = 0 → fg < 256 → ∀ i j, (binarize_mask fg thr m).px i j = bg ∨
        (binarize_mask fg thr m).px i j = fg) := by
    intro m
    refine ⟨fun i j => binarize_mask_px fg thr m i j, fun hbg hfg i j => ?_⟩
    rcases binarize_mask_px fg thr m i j with h | h
    · left; rw [h, hbg]
    · right; rw [h, Nat.mod_eq_of_lt hfg]
  cases rest with
  | nil =>
    obtain ⟨m, mw, hrun⟩ := hok ep0 (List.mem_cons_self ep0 [])
    exact ⟨_, segment_multipass_one img T seg segB bs bg fg w thr ep0 m (some mw) hrun,
      (hmem (finImg m)).1, (hmem (finImg m)).2⟩
  | cons r rs =>
    have h := segment_multipass_multi img T seg segB bs bg fg w thr ep0 (r :: rs)
      (by simp) hok
    exact ⟨_, h, (hmem _).1, (hmem _).2⟩

/-- C6 witness: the amended theorem at the concrete FAST configuration
with background id 0 and foreground id 1. -/
theorem c6_witness :
    ∃ m, segment_multipass_tiled cImg1 2 cseg0 csegB0 1 0 1 (tile_weights 2) (1/2)
        ((PyNum.int 0, PyNum.int 0) :: []) = .ok m ∧
      (∀ i j, m.px i j = 0 ∨ m.px i j = 1 % 256) ∧
      ((0 : Nat) = 0 → 1 < 256 → ∀ i j, m.px i j = 0 ∨ m.px i j = 1) := by
  refine c6_amended_theorem cImg1 2 cseg0 csegB0 1 0 1 (tile_weights 2) (1/2)
    (PyNum.int 0, PyNum.int 0) [] ?_
  intro e he
  fin_cases he
  exact ⟨_, _, rfl⟩

/-- C7 counterexample: with an all-zero custom tile weight map the
weight-total invariant is violated at the only pixel of the unpadded
image (its accumulated value is exactly 0), yet the HIGH_QUALITY run does
not fail with a computation error: numpy division by zero only warns, the
NaN produced by 0/0 compares false against the threshold, and the run
delivers the mask pixel 0. -/
theorem c7_counterexample :
    loopWsPx (multipassLoop
      (fun e => segment_tiled_raw cImg1 2 cseg1 csegB1 1 0 (some zeroImg2) e)
      (decide (1 < (extra_pads_sequence SegmentationMode.HIGH_QUALITY).length))
      (extra_pads_sequence SegmentationMode.HIGH_QUALITY) none none) 0 0 = some 0 ∧
    runPx (segment_multipass_tiled cImg1 2 cseg1 csegB1 1 0 1 zeroImg2 (1/2)
      (extra_pads_sequence SegmentationMode.HIGH_QUALITY)) 0 0 = some 0 :=
  ⟨by with_unfolding_all decide, by with_unfolding_all decide⟩

/-- C7 (amended): even when the weight-total positivity invariant is
violated at some pixel, the blender does not fail: provided every pass
succeeds, the run returns a mask, and the delivered mask contains no NaN
or infinity, only the integer values 0 and foreground id mod 256 (NaN
normalized pixels binarize to background, positive infinities to
foreground). -/
theorem c7_amended_theorem (img : CImg) (T : Nat) (seg : CImg → Img ℚ)
    (segB : List CImg → List (Img ℚ)) (bs bg fg : Nat) (w : Img ℚ) (thr : ℚ)
    (ep0 : PyNum × PyNum) (rest : List (PyNum × PyNum)) (i0 j0 : Nat)
    (hrest : rest ≠ [])
    (hok : ∀ e ∈ ep0 :: rest, ∃ m mw,
      segment_tiled_raw img T seg segB bs bg (some w) e = .ok (m, some mw))
    (hviol : loopWsPx (multipassLoop
      (fun e => segment_tiled_raw img T seg segB bs bg (some w) e)
      (decide (1 < (ep0 :: rest).length)) (ep0 :: rest) none none) i0 j0 = some 0) :
    ∃ m, segment_multipass_tiled img T seg segB bs bg fg w thr (ep0 :: rest) = .ok m ∧
      ∀ i j, m.px i j = 0 ∨ m.px i j = fg % 256 := by
  have h := segment_multipass_multi img T seg segB bs bg fg w thr ep0 rest hrest hok
  exact ⟨_, h, fun i j => binarize_mask_px fg thr _ i j⟩

/-- C7 witness: the amended theorem at the concrete violating
configuration of the counterexample (all-zero custom weight map). -/
theorem c7_witness :
    ∃ m, segment_multipass_tiled cImg1 2 cseg1 csegB1 1 0 1 zeroImg2 (1/2)
        ((PyNum.int 0, PyNum.int 0) :: [(PyNum.int 1, PyNum.int 1),
         (PyNum.int 1, PyNum.int 0), (PyNum.int 0, PyNum.int 1)]) = .ok m ∧
      ∀ i j, m.px i j = 0 ∨ m.px i j = 1 % 256 := by
  refine c7_amended_theorem cImg1 2 cseg1 csegB1 1 0 1 zeroImg2 (1/2)
    (PyNum.int 0, PyNum.int 0)
    [(PyNum.int 1, PyNum.int 1), (PyNum.int 1, PyNum.int 0), (PyNum.int 0, PyNum.int 1)]
    0 0 (by decide) ?_ (by with_unfolding_all decide)
  intro e he
  fin_cases he
  · exact ⟨_, _, rfl⟩
  · exact ⟨_, _, rfl⟩
  · exact ⟨_, _, rfl⟩
  · exact ⟨_, _, rfl⟩

/-- C8 counterexample: tile size 2 is even, yet the weight map does not
equal 1 at the geometric center: the central pixel (2/2 - 1, 2/2 - 1) =
(0, 0) has value 0 (in floating point the degenerate 0/0 is NaN, likewise
different from 1), refuting the claim as stated for every even tile size. -/
theorem c8_counterexample :
    2 % 2 = 0 ∧ maxIntWeight 2 = 0 ∧
    (tile_weights 2).px (2 / 2 - 1) (2 / 2 - 1) = 0 ∧ ((0 : ℚ) ≠ 1) :=
  ⟨rfl, rfl, by with_unfolding_all decide, by norm_num⟩

/-- C8 (amended): for every even tile size of at least 4 the generated
weight map is tile_size by tile_size; its value at (a, b) is
min(distance to nearest top/bottom edge, distance to nearest left/right
edge) in integer steps divided by the maximum attainable integer distance
tile_size/2 - 1; it equals 1 at the four central pixels, equals 0 at every
border pixel, and is invariant under 90 degree rotation. -/
theorem c8_amended_theorem (T : Nat) (hT : T % 2 = 0) (h4 : 4 ≤ T) :
    ((tile_weights T).rows = T ∧ (tile_weights T).cols = T) ∧
    (∀ a b, a < T → b < T → (tile_weights T).px a b =
      ((min (min a (T - 1 - a)) (min b (T - 1 - b)) : Nat) : ℚ) /
      ((T / 2 - 1 : Nat) : ℚ)) ∧
    ((tile_weights T).px (T / 2 - 1) (T / 2 - 1) = 1 ∧
     (tile_weights T).px (T / 2 - 1) (T / 2) = 1 ∧
     (tile_weights T).px (T / 2) (T / 2 - 1) = 1 ∧
     (tile_weights T).px (T / 2) (T / 2) = 1) ∧
    (∀ a b, a < T → b < T → (a = 0 ∨ a = T - 1 ∨ b = 0 ∨ b = T - 1) →
      (tile_weights T).px a b = 0) ∧
    (∀ a b, a < T → b < T →
      (tile_weights T).px a b = (tile_weights T).px b (T - 1 - a)) := by
  have h2 : 2 ≤ T := by omega
  have hM : ((T / 2 - 1 : Nat) : ℚ) ≠ 0 := by
    exact_mod_cast Nat.pos_iff_ne_zero.mp (by omega)
  refine ⟨⟨tile_weights_rows T hT h2, tile_weights_cols T hT h2⟩, ?_, ?_, ?_, ?_⟩
  · intro a b ha hb
    exact tile_weights_px_eq T a b hT h2 ha hb
  · have hcc : ∀ a b, a < T → b < T →
        min (min a (T - 1 - a)) (min b (T - 1 - b)) = T / 2 - 1 →
        (tile_weights T).px a b = 1 := by
      intro a b ha hb hmin
      rw [tile_weights_px_eq T a b hT h2 ha hb, hmin]
      exact div_self hM
    exact ⟨hcc _ _ (by omega) (by omega) (by omega),
           hcc _ _ (by omega) (by omega) (by omega),
           hcc _ _ (by omega) (by omega) (by omega),
           hcc _ _ (by omega) (by omega) (by omega)⟩
  · intro a b ha hb hborder
    rw [tile_weights_px_eq T a b hT h2 ha hb]
    rw [show min (min a (T - 1 - a)) (min b (T - 1 - b)) = 0 by omega]
    simp
  · intro a b ha hb
    rw [tile_weights_px_eq T a b hT h2 ha hb,
        tile_weights_px_eq T b (T - 1 - a) hT h2 hb (by omega)]
    rw [show min (min a (T - 1 - a)) (min b (T - 1 - b)) =
        min (min b (T - 1 - b)) (min (T - 1 - a) (T - 1 - (T - 1 - a))) by omega]

/-- C8 witness: the amended theorem at tile size 6, projecting the
dimension clause; the value at the center matches the docstring example. -/
theorem c8_witness :
    6 % 2 = 0 ∧ 4 ≤ 6 ∧ ((tile_weights 6).rows = 6 ∧ (tile_weights 6).cols = 6) :=
  ⟨rfl, by decide, (c8_amended_theorem 6 rfl (by decide)).1⟩

/-- C9: passing an odd tile size to the tile-weight generator fails
immediately with the assertion error and produces no weight map, and
running the multi-pass blender with an empty offset sequence fails
immediately with the assertion error before any pass runs. -/
theorem c9_theorem :
    (∀ T : Nat, T % 2 = 1 → tile_weights_checked T =
      .error "AssertionError: current method version can work only with even tile size") ∧
    (∀ (img : CImg) (T : Nat) (seg : CImg → Img ℚ) (segB : List CImg → List (Img ℚ))
       (bs bg fg : Nat) (w : Img ℚ) (thr : ℚ),
      segment_multipass_tiled img T seg segB bs bg fg w thr [] =
        .error "AssertionError: extra_pads_sequence should not be empty") := by
  constructor
  · intro T hT
    unfold tile_weights_checked
    rw [if_neg (by omega)]
  · intro img T seg segB bs bg fg w thr
    rfl

/-- C9 witness: the odd tile size 3 is rejected by the weight generator,
and the empty offset sequence is rejected by the blender at a concrete
configuration. -/
theorem c9_witness :
    3 % 2 = 1 ∧
    tile_weights_checked 3 =
      .error "AssertionError: current method version can work only with even tile size" ∧
    segment_multipass_tiled cImg1 2 cseg0 csegB0 1 0 1 (tile_weights 2) (1/2) [] =
      .error "AssertionError: extra_pads_sequence should not be empty" :=
  ⟨rfl, c9_theorem.1 3 rfl,
   c9_theorem.2 cImg1 2 cseg0 csegB0 1 0 1 (tile_weights 2) (1/2)⟩

/-- C10: the normalizing divisor max_int_weight = tile_size/2 - 1 is
nonzero for every tile size of at least 4, and then every generated
weight is a well-defined value between 0 and 1; tile size 2 satisfies the
evenness precondition of the generator yet gives a zero divisor, so
evenness alone is not a sufficient precondition for a well-defined weight
map. -/
theorem c10_theorem :
    (∀ T : Nat, 4 ≤ T → maxIntWeight T ≠ 0) ∧
    (∀ T a b : Nat, T % 2 = 0 → 4 ≤ T →
      0 ≤ (tile_weights T).px a b ∧ (tile_weights T).px a b ≤ 1) ∧
    (2 % 2 = 0 ∧ maxIntWeight 2 = 0) := by
  refine ⟨?_, ?_, rfl, rfl⟩
  · intro T h
    unfold maxIntWeight
    omega
  · intro T a b hT h4
    exact ⟨tile_weights_nonneg T a b, tile_weights_le_one T a b h4⟩

/-- C10 witness: the divisor is nonzero at tile size 4 and the weight at
(1, 1) is inside the unit interval. -/
theorem c10_witness :
    4 ≤ 4 ∧ 4 % 2 = 0 ∧ maxIntWeight 4 ≠ 0 ∧
    (0 ≤ (tile_weights 4).px 1 1 ∧ (tile_weights 4).px 1 1 ≤ 1) :=
  ⟨by decide, rfl, c10_theorem.1 4 (by decide),
   c10_theorem.2.1 4 1 1 rfl (by decide)⟩
